import Mathlib

set_option maxHeartbeats 1000000

/-!
Verification of the distributed cache repository.

Part 1 embeds the LRU store of `src/GoCache/peers.go` (Go package `LRU_Cache`).
Embedding conventions:
* the `Value` interface is a type parameter `V` together with an explicit
  length function `vlen : V → Nat` standing for the method `Len() int`
  (a byte length, hence non-negative); sizes are accumulated in `Int`
  mirroring the Go `int64` fields `maxBytes` and `nbytes`;
* Go's `container/list` recency list and the `cache` map are, by
  construction of the Go code, always mutually consistent (every key maps to
  exactly one live list node), so the embedding keeps a single association
  list; it is kept OLDEST FIRST: the head is Go's `ll.Back()` (the eviction
  end) and the last element is Go's `ll.Front()` (the most-recent end), so
  `MoveToFront`/`PushFront` append at the end;
* the optional `OnEvicted` callback is modelled by each operation returning
  the list of `(key, value)` pairs it evicts, in eviction order: when the
  callback is set, Go invokes it exactly once per returned pair.

Part 2 embeds `src/GoCache/byteview.go` (`ByteView`) and the HTTP peer layer
of `src/unnamed/part_000` (`HTTPPool.ServeHTTP`, `Set`, `PickPeer`).  Bytes
are modelled as `Nat`; Go strings handled byte-wise are modelled as
`List Char` with one `Char` per byte (the inputs of interest are ASCII).
The group registry (`GetGroup`), the cache group's `Get`, the protobuf
message encoding, and the `consistenthash` package are code of this
repository (or of its declared wire format) that is not under src; they are
modelled from the spec where marked.
-/

namespace LRUCache

/-- Go struct `Cache` (maxBytes, nbytes, ll, cache); `ll` and `cache` are
merged into the single association list `ll` (oldest first). -/
structure Cache (V : Type) where
  maxBytes : Int
  nbytes : Int
  ll : List (String × V)

/-- Go `New(maxBytes, onEvicted)`: empty list, empty map, `nbytes` zero. -/
def New (V : Type) (maxBytes : Int) : Cache V :=
  { maxBytes := maxBytes, nbytes := 0, ll := [] }

/-- The byte footprint of one entry: Go `int64(len(key)) + int64(value.Len())`. -/
def entrySize {V : Type} (vlen : V → Nat) (e : String × V) : Int :=
  (e.1.utf8ByteSize : Int) + (vlen e.2 : Int)

/-- Sum of entry footprints over a list of entries. -/
def sumBytes {V : Type} (vlen : V → Nat) (l : List (String × V)) : Int :=
  (l.map (entrySize vlen)).sum

/-- Go `Cache.Get`: on a hit, `MoveToFront` (here: move to the end of the
oldest-first list) and return the entry's value; on a miss return nothing.
The body of the Go method contains no eviction and no callback invocation. -/
def Cache.Get {V : Type} (c : Cache V) (key : String) : Option V × Cache V :=
  match c.ll.find? (fun e => e.1 == key) with
  | some e => (some e.2, { c with ll := c.ll.eraseP (fun e => e.1 == key) ++ [e] })
  | none => (none, c)

/-- Go `Cache.RemoveOldest`: take `ll.Back()` (the head here); if present,
remove it, delete its map entry, subtract its footprint from `nbytes`, and
invoke `OnEvicted` on it (returned in the trace); no-op on an empty store. -/
def Cache.RemoveOldest {V : Type} (vlen : V → Nat) (c : Cache V) :
    Cache V × List (String × V) :=
  match c.ll with
  | [] => (c, [])
  | e :: rest =>
    ({ c with ll := rest, nbytes := c.nbytes - entrySize vlen e }, [e])

/-- The eviction loop at the end of Go `Cache.Add`:
`for c.maxBytes != 0 && c.maxBytes < c.nbytes { c.RemoveOldest() }`,
unfolded over the list (oldest first) with the running `nbytes`.  Returns the
remaining list, the final `nbytes`, and the evicted entries in order.  When
the list is empty but the guard still holds, `RemoveOldest` is a no-op and
the Go loop never terminates; that state is unreachable from `New` (there
`nbytes` is the sum of the present footprints, which is `0 ≤ maxBytes` on an
empty store whenever `0 < maxBytes`), and the embedding returns the state
unchanged. -/
def evictGo {V : Type} (vlen : V → Nat) (maxB : Int) :
    List (String × V) → Int → List (String × V) × Int × List (String × V)
  | [], n => ([], n, [])
  | e :: rest, n =>
    if maxB ≠ 0 ∧ maxB < n then
      let r := evictGo vlen maxB rest (n - entrySize vlen e)
      (r.1, r.2.1, e :: r.2.2)
    else (e :: rest, n, [])

/-- Go `Cache.Add`: if the key is present, `MoveToFront`, adjust `nbytes` by
the value-size delta and overwrite the entry's value in place (the entry's key
equals the argument key, so the updated entry is `(key, value)`); otherwise
`PushFront` a new entry, record it in the map, and add its full footprint.
Then run the eviction loop. -/
def Cache.Add {V : Type} (c : Cache V) (vlen : V → Nat) (key : String) (value : V) :
    Cache V × List (String × V) :=
  let c1 : Cache V :=
    match c.ll.find? (fun e => e.1 == key) with
    | some e =>
      { c with ll := c.ll.eraseP (fun e => e.1 == key) ++ [(key, value)],
               nbytes := c.nbytes + ((vlen value : Int) - (vlen e.2 : Int)) }
    | none =>
      { c with ll := c.ll ++ [(key, value)],
               nbytes := c.nbytes + ((key.utf8ByteSize : Int) + (vlen value : Int)) }
  let r := evictGo vlen c.maxBytes c1.ll c1.nbytes
  ({ c with ll := r.1, nbytes := r.2.1 }, r.2.2)

/-- Go `Cache.Len`: the number of live entries (`ll.Len()`). -/
def Cache.Len {V : Type} (c : Cache V) : Nat := c.ll.length

/-- One step of the store's public interface, for reasoning about operation
sequences.  `get` is included for completeness; the Go `Get` produces no
evictions, hence an empty trace. -/
inductive Op (V : Type) where
  | add (key : String) (value : V)
  | removeOldest
  | get (key : String)

/-- Apply one operation; return the new store and the evicted entries. -/
def step {V : Type} (vlen : V → Nat) (c : Cache V) : Op V → Cache V × List (String × V)
  | Op.add k v => c.Add vlen k v
  | Op.removeOldest => Cache.RemoveOldest vlen c
  | Op.get k => ((c.Get k).2, [])

/-- Run a sequence of operations, accumulating the eviction trace. -/
def run {V : Type} (vlen : V → Nat) (c : Cache V) :
    List (Op V) → Cache V × List (String × V)
  | [] => (c, [])
  | op :: rest =>
    let r := step vlen c op
    let r2 := run vlen r.1 rest
    (r2.1, r.2 ++ r2.2)

end LRUCache

namespace GoCache

/-- Go `ByteView` (src/GoCache/byteview.go): an immutable byte buffer; bytes
are modelled as `Nat`. -/
structure ByteView where
  b : List Nat
deriving DecidableEq

/-- Go `cloneBytes`: allocate a fresh buffer of the same length and copy the
bytes across one by one. -/
def cloneBytes : List Nat → List Nat
  | [] => []
  | x :: xs => x :: cloneBytes xs

/-- Go `ByteView.Len`: the length of the underlying buffer. -/
def ByteView.Len (v : ByteView) : Nat := v.b.length

/-- Go `ByteView.ByteSlice`: return a copy of the underlying buffer, so the
caller never holds a reference into the view. -/
def ByteView.ByteSlice (v : ByteView) : List Nat := cloneBytes v.b

/-- Go `ByteView.String`: `string(v.b)`, the Go string whose bytes are exactly
the buffer's bytes; modelled as that byte sequence. -/
def ByteView.toStr (v : ByteView) : List Nat := v.b

/-- Go const `defultBasePath` (name as in the source). -/
def defultBasePath : List Char := "/_gocache/".data

/-- Go const `defaultReplicas`. -/
def defaultReplicas : Nat := 50

/-- Go `httpGetter`: the HTTP client for one remote peer, holding the peer's
base URL. -/
structure HttpGetter where
  baseURL : String
deriving DecidableEq

/-- Go `HTTPPool` (fields self, basePath, peers, httpGetters; the mutex guards
concurrent access and has no sequential content).  The field `peers` is a
`consistenthash.Map`; that package is not under src, so — modelled from the
spec — the map's sequential state is its set of added nodes, and its key
lookup is an abstract function `locate : List String → String → String`
passed to `PickPeer` and constrained in the theorems by the spec's
guarantees (a nonempty ring resolves every key to one of its nodes,
deterministically; an empty ring yields the empty result). -/
structure HTTPPool where
  self : String
  basePath : String
  peers : List String
  httpGetters : List (String × HttpGetter)

/-- Go `NewHTTPPool(self)`: base path defaults to `defultBasePath`; the ring
and client map are not yet created. -/
def NewHTTPPool (self : String) : HTTPPool :=
  { self := self, basePath := "/_gocache/", peers := [], httpGetters := [] }

/-- Go map indexing `p.httpGetters[peer]`: the client registered under the
address, `none` (Go: nil) when absent. -/
def lookupGetter (m : List (String × HttpGetter)) (k : String) : Option HttpGetter :=
  (m.find? (fun e => e.1 == k)).map Prod.snd

/-- Go `HTTPPool.Set(peers...)`: rebuild the consistent-hash ring from scratch
over the given peers and create one `httpGetter` per peer with base URL
`peer + p.basePath`. -/
def HTTPPool.Set (p : HTTPPool) (peers : List String) : HTTPPool :=
  { p with peers := peers,
           httpGetters := peers.map (fun peer => (peer, ⟨peer ++ p.basePath⟩)) }

/-- Go `HTTPPool.PickPeer(key)`: resolve the key on the ring; when the result
is nonempty and is not this node's own address, return the registered client
and `true`; otherwise return nil and `false`.  `locate` abstracts the missing
`consistenthash.Map.Get` (see `HTTPPool`). -/
def HTTPPool.PickPeer (locate : List String → String → String) (p : HTTPPool)
    (key : String) : Option HttpGetter × Bool :=
  let peer := locate p.peers key
  if peer ≠ "" ∧ peer ≠ p.self then (lookupGetter p.httpGetters peer, true)
  else (none, false)

/-- Modelled from the spec: a cache group's lookup interface (Go
`group.Get(key) -> (ByteView, error)`; the group implementation is not under
src).  `get` returns the value view or the error text. -/
structure GroupM where
  get : List Char → Except (List Char) ByteView

/-- Modelled from the spec: the process-wide group registry queried by Go
`GetGroup(name)` (not under src); absent names yield `none` (Go: nil). -/
def lookupGroup (groups : List (List Char × GroupM)) (name : List Char) :
    Option GroupM :=
  (groups.find? (fun e => e.1 == name)).map Prod.snd

/-- Modelled from the spec: protobuf base-128 varint encoding of a
natural number (little-endian 7-bit groups, continuation bit 0x80). -/
def pbVarint (n : Nat) : List Nat :=
  if h : n < 128 then [n] else (n % 128 + 128) :: pbVarint (n / 128)
termination_by n
decreasing_by
  simp_wf
  exact Nat.div_lt_self (by omega) (by omega)

/-- Modelled from the spec: `proto.Marshal` of the wire message
`Response {value: bytes}` (a proto3 message whose single bytes field has
number 1, wire type 2).  Proto3 omits a bytes field whose value is empty, so
the empty value marshals to no bytes at all; otherwise the encoding is the
tag byte 0x0A, the varint length, then the raw bytes. -/
def pbMarshalResponse (value : List Nat) : List Nat :=
  if value = [] then [] else 10 :: (pbVarint value.length ++ value)

/-- `strings.SplitN(s, "/", 2)`, first half: find the first slash and split
there. -/
def splitFirstSlash : List Char → Option (List Char × List Char)
  | [] => none
  | c :: rest =>
    if c = '/' then some ([], rest)
    else (splitFirstSlash rest).map (fun q => (c :: q.1, q.2))

/-- `strings.SplitN(s, "/", 2)`: at most two parts, split at the first slash;
a string with no slash yields the one-element list. -/
def splitN2 (s : List Char) : List (List Char) :=
  match splitFirstSlash s with
  | some q => [q.1, q.2]
  | none => [s]

/-- The observable outcome of one `ServeHTTP` call: `resp status body` is the
status sent with the first header write (200 when the handler only ever
writes a body) together with all accumulated body bytes; `noWrite` is the
prefix-mismatch branch (the handler returns having written nothing, Go then
sends 200 with an empty body); `panicked` is an out-of-range string index
(a Go run-time panic). -/
inductive HResp where
  | noWrite
  | panicked
  | resp (status : Nat) (body : List Nat)
deriving DecidableEq

/-- Bytes of an ASCII text fragment. -/
def strBytes (s : List Char) : List Nat := s.map Char.toNat

/-- Go `http.Error(w, msg, code)`: write header `code`, then the body
`msg + "\n"`. -/
def httpError (msg : List Char) (code : Nat) : HResp :=
  HResp.resp code (strBytes (msg ++ ['\n']))

/-- Lines 80–98 of Go `HTTPPool.ServeHTTP`, after the path has been split:
look the group up (404 with body `no such group:<name>` when absent), then
call `group.Get(key)`.  On error the code calls `http.Error(status 500, error
text)` and then FALLS THROUGH (there is no `return`): it marshals the zero
`ByteView` — whose `ByteSlice` is empty, so the marshalled payload is empty —
and appends it to the already-written body; the 500 status stands because the
header was already written.  On success it marshals the value's `ByteSlice`
and writes it, which sends the implicit status 200. -/
def handleGroup (groups : List (List Char × GroupM)) (groupName key : List Char) :
    HResp :=
  match lookupGroup groups groupName with
  | none => httpError ("no such group:".data ++ groupName) 404
  | some g =>
    match g.get key with
    | Except.error e =>
      HResp.resp 500 (strBytes (e ++ ['\n']) ++ pbMarshalResponse (ByteView.ByteSlice ⟨[]⟩))
    | Except.ok view =>
      HResp.resp 200 (pbMarshalResponse view.ByteSlice)

/-- Go `HTTPPool.ServeHTTP` (src/unnamed/part_000 lines 64–98) on a GET
request whose percent-decoded URL path is `path`, for a pool with base path
`basePath` and (modelled) registry `groups`.  Paths are byte strings written
as `List Char` (ASCII).  Faithful to the source, the split input is
`string(r.URL.Path[len(p.basePath)])` — the SINGLE byte at index
`len(p.basePath)` (the source lacks the `:` that would make it a slice) — so
`parts` always comes from a one-byte string; indexing one past the end of the
path is a Go run-time panic. -/
def serveHTTP (groups : List (List Char × GroupM)) (basePath path : List Char) :
    HResp :=
  if basePath.isPrefixOf path then
    match path.get? basePath.length with
    | none => HResp.panicked
    | some ch =>
      let parts := splitN2 [ch]
      if parts.length ≠ 2 then httpError "bad request".data 400
      else handleGroup groups (parts.getD 0 []) (parts.getD 1 [])
  else HResp.noWrite

/-- A sample registered group for concrete evaluations: every lookup succeeds
with the three bytes 1, 2, 3. -/
def scoresGroup : GroupM := ⟨fun _ => Except.ok ⟨[1, 2, 3]⟩⟩

/-- A sample group whose lookups always fail, for concrete evaluations. -/
def boomGroup : GroupM := ⟨fun _ => Except.error "boom".data⟩

/-- A sample ring-lookup function for concrete evaluations: resolve every key
to the first node (empty result on an empty ring). -/
def locateHead : List String → String → String := fun ps _ => ps.headD ""

end GoCache

namespace LRUCache

/-! Helper lemmas about the byte accounting. -/

@[simp]
theorem sumBytes_nil {V : Type} (vlen : V → Nat) : sumBytes vlen [] = 0 := rfl

@[simp]
theorem sumBytes_cons {V : Type} (vlen : V → Nat) (e : String × V)
    (l : List (String × V)) :
    sumBytes vlen (e :: l) = entrySize vlen e + sumBytes vlen l := by
  simp [sumBytes]

@[simp]
theorem sumBytes_append {V : Type} (vlen : V → Nat) (l₁ l₂ : List (String × V)) :
    sumBytes vlen (l₁ ++ l₂) = sumBytes vlen l₁ + sumBytes vlen l₂ := by
  simp [sumBytes]

theorem entrySize_nonneg {V : Type} (vlen : V → Nat) (e : String × V) :
    0 ≤ entrySize vlen e := by
  simp only [entrySize]
  positivity

theorem sumBytes_nonneg {V : Type} (vlen : V → Nat) (l : List (String × V)) :
    0 ≤ sumBytes vlen l := by
  induction l with
  | nil => simp
  | cons e rest ih =>
    have := entrySize_nonneg vlen e
    simp only [sumBytes_cons]
    omega

/-- Splitting the footprint sum at the entry returned by `find?`. -/
theorem find?_eraseP_sum {V : Type} (vlen : V → Nat) (p : String × V → Bool) :
    ∀ (l : List (String × V)) (e : String × V), l.find? p = some e →
      sumBytes vlen l = entrySize vlen e + sumBytes vlen (l.eraseP p)
  | [], e, h => by simp at h
  | a :: rest, e, h => by
    by_cases hpa : p a
    · rw [List.find?_cons_of_pos _ hpa] at h
      cases h
      rw [List.eraseP_cons_of_pos hpa, sumBytes_cons]
    · rw [List.find?_cons_of_neg _ hpa] at h
      rw [List.eraseP_cons_of_neg hpa]
      have ih := find?_eraseP_sum vlen p rest e h
      simp only [sumBytes_cons]
      omega

/-- The eviction loop keeps `nbytes` equal to the footprint sum. -/
theorem evictGo_sum {V : Type} (vlen : V → Nat) (maxB : Int) :
    ∀ (l : List (String × V)) (n : Int), n = sumBytes vlen l →
      (evictGo vlen maxB l n).2.1 = sumBytes vlen (evictGo vlen maxB l n).1
  | [], n, h => by simpa [evictGo] using h
  | e :: rest, n, h => by
    simp only [evictGo]
    split
    · have ih := evictGo_sum vlen maxB rest (n - entrySize vlen e)
        (by simp only [sumBytes_cons] at h; omega)
      simpa using ih
    · simpa using h

/-- The eviction loop stops only with `nbytes ≤ maxBytes` or an empty store. -/
theorem evictGo_bound {V : Type} (vlen : V → Nat) (maxB : Int) (hmax : maxB ≠ 0) :
    ∀ (l : List (String × V)) (n : Int),
      (evictGo vlen maxB l n).2.1 ≤ maxB ∨ (evictGo vlen maxB l n).1 = []
  | [], n => Or.inr rfl
  | e :: rest, n => by
    simp only [evictGo]
    split
    · simpa using evictGo_bound vlen maxB hmax rest (n - entrySize vlen e)
    · rename_i hcond
      left
      simp only [not_and, not_lt, ne_eq] at hcond
      simpa using hcond hmax

/-- Unfolding of `Add` when the key is already present. -/
theorem Add_eq_pos {V : Type} (vlen : V → Nat) (c : Cache V) (k : String) (v : V)
    (e : String × V) (hf : c.ll.find? (fun x => x.1 == k) = some e) :
    c.Add vlen k v =
      (let r := evictGo vlen c.maxBytes (c.ll.eraseP (fun x => x.1 == k) ++ [(k, v)])
        (c.nbytes + ((vlen v : Int) - (vlen e.2 : Int)))
      ({ c with ll := r.1, nbytes := r.2.1 }, r.2.2)) := by
  simp [Cache.Add, hf]

/-- Unfolding of `Add` when the key is absent. -/
theorem Add_eq_neg {V : Type} (vlen : V → Nat) (c : Cache V) (k : String) (v : V)
    (hf : c.ll.find? (fun x => x.1 == k) = none) :
    c.Add vlen k v =
      (let r := evictGo vlen c.maxBytes (c.ll ++ [(k, v)])
        (c.nbytes + ((k.utf8ByteSize : Int) + (vlen v : Int)))
      ({ c with ll := r.1, nbytes := r.2.1 }, r.2.2)) := by
  simp [Cache.Add, hf]

/-- `Add` preserves the byte-accounting invariant. -/
theorem Add_inv {V : Type} (vlen : V → Nat) (c : Cache V) (k : String) (v : V)
    (h : c.nbytes = sumBytes vlen c.ll) :
    (c.Add vlen k v).1.nbytes = sumBytes vlen (c.Add vlen k v).1.ll := by
  cases hf : c.ll.find? (fun x => x.1 == k) with
  | some e =>
    have hsplit := find?_eraseP_sum vlen (fun x => x.1 == k) c.ll e hf
    have hk : e.1 = k := by simpa using List.find?_some hf
    rw [Add_eq_pos vlen c k v e hf]
    refine evictGo_sum vlen c.maxBytes _ _ ?_
    simp only [sumBytes_append, sumBytes_cons, sumBytes_nil, entrySize] at hsplit ⊢
    rw [hk] at hsplit
    omega
  | none =>
    rw [Add_eq_neg vlen c k v hf]
    refine evictGo_sum vlen c.maxBytes _ _ ?_
    simp only [sumBytes_append, sumBytes_cons, sumBytes_nil, entrySize]
    omega

/-- `RemoveOldest` preserves the byte-accounting invariant. -/
theorem RemoveOldest_inv {V : Type} (vlen : V → Nat) (c : Cache V)
    (h : c.nbytes = sumBytes vlen c.ll) :
    (Cache.RemoveOldest vlen c).1.nbytes =
      sumBytes vlen (Cache.RemoveOldest vlen c).1.ll := by
  simp only [Cache.RemoveOldest]
  cases hl : c.ll with
  | nil => simpa [hl] using h
  | cons e rest =>
    rw [hl] at h
    simp only [sumBytes_cons] at h
    simp only [h]
    omega

/-- `Get` preserves the byte-accounting invariant. -/
theorem Get_inv {V : Type} (vlen : V → Nat) (c : Cache V) (k : String)
    (h : c.nbytes = sumBytes vlen c.ll) :
    (c.Get k).2.nbytes = sumBytes vlen (c.Get k).2.ll := by
  simp only [Cache.Get]
  cases hf : c.ll.find? (fun e => e.1 == k) with
  | some e =>
    have hsplit := find?_eraseP_sum vlen (fun e => e.1 == k) c.ll e hf
    simp only [sumBytes_append, sumBytes_cons, sumBytes_nil]
    omega
  | none => simpa using h

/-- Every operation preserves the byte-accounting invariant. -/
theorem step_inv {V : Type} (vlen : V → Nat) (c : Cache V) (op : Op V)
    (h : c.nbytes = sumBytes vlen c.ll) :
    (step vlen c op).1.nbytes = sumBytes vlen (step vlen c op).1.ll := by
  cases op with
  | add k v => exact Add_inv vlen c k v h
  | removeOldest => exact RemoveOldest_inv vlen c h
  | get k => exact Get_inv vlen c k h

/-- Any run from an invariant-satisfying store lands on an
invariant-satisfying store. -/
theorem run_inv {V : Type} (vlen : V → Nat) :
    ∀ (ops : List (Op V)) (c : Cache V), c.nbytes = sumBytes vlen c.ll →
      (run vlen c ops).1.nbytes = sumBytes vlen (run vlen c ops).1.ll
  | [], c, h => h
  | op :: rest, c, h => by
    simp only [run]
    exact run_inv vlen rest (step vlen c op).1 (step_inv vlen c op h)

/-- No operation changes `maxBytes`. -/
theorem step_maxBytes {V : Type} (vlen : V → Nat) (c : Cache V) (op : Op V) :
    (step vlen c op).1.maxBytes = c.maxBytes := by
  cases op with
  | add k v => simp only [step, Cache.Add]
  | removeOldest =>
    simp only [step, Cache.RemoveOldest]
    cases c.ll <;> rfl
  | get k =>
    simp only [step, Cache.Get]
    cases c.ll.find? (fun e => e.1 == k) <;> rfl

/-- A run does not change `maxBytes`. -/
theorem run_maxBytes {V : Type} (vlen : V → Nat) :
    ∀ (ops : List (Op V)) (c : Cache V), (run vlen c ops).1.maxBytes = c.maxBytes
  | [], c => rfl
  | op :: rest, c => by
    simp only [run]
    rw [run_maxBytes vlen rest (step vlen c op).1, step_maxBytes]

/-- Unfolding of `Get` on a hit. -/
theorem Get_eq_pos {V : Type} (c : Cache V) (k : String) (e : String × V)
    (hf : c.ll.find? (fun x => x.1 == k) = some e) :
    c.Get k = (some e.2, { c with ll := c.ll.eraseP (fun x => x.1 == k) ++ [e] }) := by
  simp [Cache.Get, hf]

/-- Unfolding of `Get` on a miss. -/
theorem Get_eq_neg {V : Type} (c : Cache V) (k : String)
    (hf : c.ll.find? (fun x => x.1 == k) = none) :
    c.Get k = (none, c) := by
  simp [Cache.Get, hf]

/-- `Add` on a store satisfying the accounting invariant is the eviction loop
run on some entry list ending in the new entry, starting from that list's
footprint sum. -/
theorem Add_evict_spec {V : Type} (vlen : V → Nat) (c : Cache V) (k : String) (v : V)
    (hinv : c.nbytes = sumBytes vlen c.ll) :
    ∃ l0 n1, n1 = sumBytes vlen (l0 ++ [(k, v)]) ∧
      c.Add vlen k v =
        (let r := evictGo vlen c.maxBytes (l0 ++ [(k, v)]) n1
        ({ c with ll := r.1, nbytes := r.2.1 }, r.2.2)) := by
  cases hf : c.ll.find? (fun x => x.1 == k) with
  | some e =>
    have hsplit := find?_eraseP_sum vlen (fun x => x.1 == k) c.ll e hf
    have hk : e.1 = k := by simpa using List.find?_some hf
    refine ⟨c.ll.eraseP (fun x => x.1 == k), _, ?_, Add_eq_pos vlen c k v e hf⟩
    simp only [sumBytes_append, sumBytes_cons, sumBytes_nil, entrySize] at hsplit ⊢
    rw [hk] at hsplit
    omega
  | none =>
    refine ⟨c.ll, _, ?_, Add_eq_neg vlen c k v hf⟩
    simp only [sumBytes_append, sumBytes_cons, sumBytes_nil, entrySize]
    omega

/-- After `Add` on an invariant-satisfying store with positive capacity, the
byte counter is bounded by the capacity. -/
theorem Add_nbytes_le {V : Type} (vlen : V → Nat) (c : Cache V) (k : String) (v : V)
    (hinv : c.nbytes = sumBytes vlen c.ll) (hpos : 0 < c.maxBytes) :
    (c.Add vlen k v).1.nbytes ≤ c.maxBytes := by
  obtain ⟨l0, n1, hn1, heq⟩ := Add_evict_spec vlen c k v hinv
  rw [heq]
  show (evictGo vlen c.maxBytes (l0 ++ [(k, v)]) n1).2.1 ≤ c.maxBytes
  have hne : c.maxBytes ≠ 0 := by omega
  have hsum := evictGo_sum vlen c.maxBytes (l0 ++ [(k, v)]) n1 hn1
  rcases evictGo_bound vlen c.maxBytes hne (l0 ++ [(k, v)]) n1 with hb | hb
  · exact hb
  · rw [hsum, hb, sumBytes_nil]
    omega

/-- C1: Byte-accounting invariant of the LRU store — for every sequence of
operations (`Add`, `RemoveOldest`, and also `Get`) applied to a new store,
the used-byte counter `nbytes` equals the sum of `len(key) + value.Len()`
over all currently present entries. -/
theorem C1_byte_accounting {V : Type} (vlen : V → Nat) (maxBytes : Int)
    (ops : List (Op V)) :
    (run vlen (New V maxBytes) ops).1.nbytes =
      sumBytes vlen (run vlen (New V maxBytes) ops).1.ll :=
  run_inv vlen ops (New V maxBytes) rfl

/-- C2: Bounding invariant — after any `Add` on a store with positive
capacity, reached by any operation sequence from a new store, the used-byte
counter is at most the capacity.  (No "single entry fits" proviso is needed:
an oversized `Add` empties the store, leaving `nbytes = 0 ≤ maxBytes`.) -/
theorem C2_bounding {V : Type} (vlen : V → Nat) (maxBytes : Int)
    (hpos : 0 < maxBytes) (ops : List (Op V)) (k : String) (v : V) :
    ((run vlen (New V maxBytes) ops).1.Add vlen k v).1.nbytes ≤ maxBytes := by
  have hinv := run_inv vlen ops (New V maxBytes) rfl
  have hmax := run_maxBytes vlen ops (New V maxBytes)
  have hm0 : (New V maxBytes).maxBytes = maxBytes := rfl
  have h := Add_nbytes_le vlen (run vlen (New V maxBytes) ops).1 k v hinv
    (by rw [hmax, hm0]; exact hpos)
  rw [hmax, hm0] at h
  exact h

/-- C2 witness: a concrete positive-capacity instance of `C2_bounding`. -/
theorem C2_bounding_witness :
    (0 : Int) < 1 ∧
      ((run (fun _ => 0) (New Unit 1) []).1.Add (fun _ => 0) "a" ()).1.nbytes ≤ 1 :=
  ⟨by decide, C2_bounding (fun _ => 0) 1 (by decide) [] "a" ()⟩

/-- C5: Recency law — with capacity for exactly two entries (any sizes where
A+B and A+C fit but A+B+C does not), after Add(A), Add(B), Get(A), Add(C):
the Add(C) evicts exactly B (invoking the callback on it), and afterwards
Get(A) and Get(C) hit with the stored values while Get(B) misses. -/
theorem C5_recency {V : Type} (vlen : V → Nat) (cap : Int) (A B C : String)
    (vA vB vC : V) (hAB : A ≠ B) (hAC : A ≠ C) (hBC : B ≠ C)
    (hcap : 0 < cap)
    (hABfit : entrySize vlen (A, vA) + entrySize vlen (B, vB) ≤ cap)
    (hACfit : entrySize vlen (A, vA) + entrySize vlen (C, vC) ≤ cap)
    (hfull : cap < entrySize vlen (A, vA) + entrySize vlen (B, vB) + entrySize vlen (C, vC)) :
    let c1 := ((New V cap).Add vlen A vA).1
    let c2 := (c1.Add vlen B vB).1
    let c3 := (c2.Get A).2
    let r4 := c3.Add vlen C vC
    r4.2 = [(B, vB)] ∧ (r4.1.Get A).1 = some vA ∧ (r4.1.Get B).1 = none ∧
      (r4.1.Get C).1 = some vC := by
  intro c1 c2 c3 r4
  have bAB : (A == B) = false := beq_eq_false_iff_ne.mpr hAB
  have bAC : (A == C) = false := beq_eq_false_iff_ne.mpr hAC
  have bBC : (B == C) = false := beq_eq_false_iff_ne.mpr hBC
  have bCB : (C == B) = false := beq_eq_false_iff_ne.mpr (Ne.symm hBC)
  have nA := entrySize_nonneg vlen (A, vA)
  have nB := entrySize_nonneg vlen (B, vB)
  have nC := entrySize_nonneg vlen (C, vC)
  simp only [entrySize] at hABfit hACfit hfull nA nB nC
  have h1 : c1 =
      ⟨cap, 0 + ((A.utf8ByteSize : Int) + (vlen vA : Int)), [(A, vA)]⟩ := by
    show ((New V cap).Add vlen A vA).1 = _
    rw [Add_eq_neg vlen (New V cap) A vA rfl]
    simp only [New, List.nil_append, evictGo]
    rw [if_neg (by rintro ⟨-, hlt⟩; omega)]
  have hf2 : [(A, vA)].find? (fun x => x.1 == B) = none := by
    rw [List.find?_cons_of_neg _ (by simp [bAB])]
    rfl
  have h2 : c2 =
      ⟨cap, 0 + ((A.utf8ByteSize : Int) + (vlen vA : Int)) +
        ((B.utf8ByteSize : Int) + (vlen vB : Int)), [(A, vA), (B, vB)]⟩ := by
    show (c1.Add vlen B vB).1 = _
    rw [h1, Add_eq_neg vlen _ B vB hf2]
    simp only [evictGo, List.cons_append, List.nil_append]
    rw [if_neg (by rintro ⟨-, hlt⟩; omega)]
    rfl
  have hf3 : [(A, vA), (B, vB)].find? (fun x => x.1 == A) = some (A, vA) := by
    rw [List.find?_cons_of_pos _ (by simp)]
  have h3 : c3 =
      ⟨cap, 0 + ((A.utf8ByteSize : Int) + (vlen vA : Int)) +
        ((B.utf8ByteSize : Int) + (vlen vB : Int)), [(B, vB), (A, vA)]⟩ := by
    show (c2.Get A).2 = _
    rw [h2, Get_eq_pos _ A (A, vA) hf3]
    simp [List.eraseP_cons]
  have hf4 : [(B, vB), (A, vA)].find? (fun x => x.1 == C) = none := by
    rw [List.find?_cons_of_neg _ (by simp [bBC]), List.find?_cons_of_neg _ (by simp [bAC])]
    rfl
  have h4 : r4 =
      (⟨cap, 0 + ((A.utf8ByteSize : Int) + (vlen vA : Int)) +
        ((B.utf8ByteSize : Int) + (vlen vB : Int)) +
        ((C.utf8ByteSize : Int) + (vlen vC : Int)) -
        ((B.utf8ByteSize : Int) + (vlen vB : Int)), [(A, vA), (C, vC)]⟩, [(B, vB)]) := by
    show c3.Add vlen C vC = _
    rw [h3, Add_eq_neg vlen _ C vC hf4]
    simp only [evictGo, List.cons_append, List.nil_append]
    rw [if_pos ⟨by omega, by omega⟩]
    rw [if_neg (by rintro ⟨-, hlt⟩; simp only [entrySize] at hlt; omega)]
    simp only [entrySize]
    rfl
  rw [h4]
  refine ⟨rfl, ?_, ?_, ?_⟩
  · rw [Get_eq_pos _ A (A, vA) (by rw [List.find?_cons_of_pos _ (by simp)])]
  · rw [Get_eq_neg _ B
      (by rw [List.find?_cons_of_neg _ (by simp [bAB]),
        List.find?_cons_of_neg _ (by simp [bCB])]; rfl)]
  · rw [Get_eq_pos _ C (C, vC)
      (by rw [List.find?_cons_of_neg _ (by simp [bAC]),
        List.find?_cons_of_pos _ (by simp)])]

/-- C5 witness: three unit entries of footprint 2 in a store of capacity 4. -/
theorem C5_recency_witness :
    ("A" ≠ "B" ∧ "A" ≠ "C" ∧ "B" ≠ "C" ∧ (0 : Int) < 4 ∧
      entrySize (fun _ : Unit => 1) ("A", ()) + entrySize (fun _ : Unit => 1) ("B", ()) ≤ 4 ∧
      entrySize (fun _ : Unit => 1) ("A", ()) + entrySize (fun _ : Unit => 1) ("C", ()) ≤ 4 ∧
      (4 : Int) < entrySize (fun _ : Unit => 1) ("A", ()) + entrySize (fun _ : Unit => 1) ("B", ()) +
        entrySize (fun _ : Unit => 1) ("C", ())) ∧
    (let c1 := ((New Unit 4).Add (fun _ => 1) "A" ()).1
     let c2 := (c1.Add (fun _ => 1) "B" ()).1
     let c3 := (c2.Get "A").2
     let r4 := c3.Add (fun _ => 1) "C" ()
     r4.2 = [("B", ())] ∧ (r4.1.Get "A").1 = some () ∧ (r4.1.Get "B").1 = none ∧
       (r4.1.Get "C").1 = some ()) :=
  ⟨⟨by decide, by decide, by decide, by decide, by decide, by decide, by decide⟩,
   C5_recency (fun _ => 1) 4 "A" "B" "C" () () () (by decide) (by decide) (by decide)
     (by decide) (by decide) (by decide) (by decide)⟩



/-- When the last entry of the list alone exceeds a nonzero capacity, the
eviction loop empties the store, evicting every entry (the new one included). -/
theorem evictGo_oversized {V : Type} (vlen : V → Nat) (maxB : Int) (hne : maxB ≠ 0)
    (k : String) (v : V) (hbig : maxB < entrySize vlen (k, v)) :
    ∀ (l0 : List (String × V)) (n : Int), n = sumBytes vlen (l0 ++ [(k, v)]) →
      (evictGo vlen maxB (l0 ++ [(k, v)]) n).1 = [] ∧
      (evictGo vlen maxB (l0 ++ [(k, v)]) n).2.2 = l0 ++ [(k, v)]
  | [], n, hn => by
    simp only [List.nil_append] at hn ⊢
    simp only [sumBytes_cons, sumBytes_nil] at hn
    simp only [evictGo]
    rw [if_pos ⟨hne, by omega⟩]
    simp [evictGo]
  | e :: rest, n, hn => by
    have hrec := evictGo_oversized vlen maxB hne k v hbig rest (n - entrySize vlen e)
      (by simp only [List.cons_append, sumBytes_cons] at hn; omega)
    have hlt : maxB < n := by
      have h1 := entrySize_nonneg vlen e
      have h2 := sumBytes_nonneg vlen rest
      simp only [List.cons_append, sumBytes_cons, sumBytes_append, sumBytes_nil] at hn
      omega
    simp only [List.cons_append, evictGo]
    rw [if_pos ⟨hne, hlt⟩]
    refine ⟨hrec.1, ?_⟩
    show e :: (evictGo vlen maxB (rest ++ [(k, v)]) (n - entrySize vlen e)).2.2 =
      e :: (rest ++ [(k, v)])
    rw [hrec.2]

/-- C6: Oversized-entry pass-through — on any store satisfying the accounting
invariant with positive capacity, `Add` of an entry whose footprint
`len(key) + value.Len()` exceeds the capacity inserts it and the eviction
loop immediately evicts it (the callback trace contains the entry), so a
subsequent `Get` of that key misses. -/
theorem C6_oversized {V : Type} (vlen : V → Nat) (c : Cache V) (k : String) (v : V)
    (hinv : c.nbytes = sumBytes vlen c.ll)
    (hpos : 0 < c.maxBytes)
    (hbig : c.maxBytes < (k.utf8ByteSize : Int) + (vlen v : Int)) :
    (k, v) ∈ (c.Add vlen k v).2 ∧ ((c.Add vlen k v).1.Get k).1 = none := by
  obtain ⟨l0, n1, hn1, heq⟩ := Add_evict_spec vlen c k v hinv
  have hne : c.maxBytes ≠ 0 := by omega
  have hbig' : c.maxBytes < entrySize vlen (k, v) := by simpa [entrySize] using hbig
  obtain ⟨hres, htrace⟩ := evictGo_oversized vlen c.maxBytes hne k v hbig' l0 n1 hn1
  constructor
  · rw [heq]
    show (k, v) ∈ (evictGo vlen c.maxBytes (l0 ++ [(k, v)]) n1).2.2
    rw [htrace]
    simp
  · rw [heq]
    show ((⟨c.maxBytes, (evictGo vlen c.maxBytes (l0 ++ [(k, v)]) n1).2.1,
        (evictGo vlen c.maxBytes (l0 ++ [(k, v)]) n1).1⟩ : Cache V).Get k).1 = none
    rw [Get_eq_neg _ k (by rw [hres]; rfl)]

/-- C6 witness: capacity 1, entry of footprint 2. -/
theorem C6_oversized_witness :
    (((New Unit 1).nbytes = sumBytes (fun _ => 0) (New Unit 1).ll) ∧
      (0 : Int) < (New Unit 1).maxBytes ∧
      (New Unit 1).maxBytes < (("ab".utf8ByteSize : Int) + ((0 : Nat) : Int))) ∧
    (("ab", ()) ∈ ((New Unit 1).Add (fun _ => 0) "ab" ()).2 ∧
      (((New Unit 1).Add (fun _ => 0) "ab" ()).1.Get "ab").1 = none) :=
  ⟨⟨rfl, by decide, by decide⟩,
   C6_oversized (fun _ => 0) (New Unit 1) "ab" () rfl (by decide) (by decide)⟩

/-- With zero capacity the eviction loop is a no-op. -/
theorem evictGo_zero {V : Type} (vlen : V → Nat) :
    ∀ (l : List (String × V)) (n : Int), evictGo vlen 0 l n = (l, n, [])
  | [], n => rfl
  | e :: rest, n => by simp [evictGo]

/-- `Add` on a zero-capacity store evicts nothing and leaves the new entry at
the most-recent end. -/
theorem Add_zero {V : Type} (vlen : V → Nat) (c : Cache V) (k : String) (v : V)
    (hz : c.maxBytes = 0) :
    (c.Add vlen k v).2 = [] ∧ ∃ l0, (c.Add vlen k v).1.ll = l0 ++ [(k, v)] := by
  cases hf : c.ll.find? (fun x => x.1 == k) with
  | some e =>
    rw [Add_eq_pos vlen c k v e hf, hz]
    constructor
    · show (evictGo vlen 0 (c.ll.eraseP (fun x => x.1 == k) ++ [(k, v)]) _).2.2 = []
      rw [evictGo_zero]
    · refine ⟨c.ll.eraseP (fun x => x.1 == k), ?_⟩
      show (evictGo vlen 0 (c.ll.eraseP (fun x => x.1 == k) ++ [(k, v)]) _).1 = _
      rw [evictGo_zero]
  | none =>
    rw [Add_eq_neg vlen c k v hf, hz]
    constructor
    · show (evictGo vlen 0 (c.ll ++ [(k, v)]) _).2.2 = []
      rw [evictGo_zero]
    · refine ⟨c.ll, ?_⟩
      show (evictGo vlen 0 (c.ll ++ [(k, v)]) _).1 = _
      rw [evictGo_zero]

/-- After a zero-capacity `Add`, the added key is present. -/
theorem Add_zero_self_present {V : Type} (vlen : V → Nat) (c : Cache V) (k : String)
    (v : V) (hz : c.maxBytes = 0) :
    ∃ e ∈ (c.Add vlen k v).1.ll, e.1 = k := by
  obtain ⟨-, l0, hll⟩ := Add_zero vlen c k v hz
  exact ⟨(k, v), by rw [hll]; exact List.mem_append_right _ (by simp), rfl⟩

/-- A zero-capacity `Add` preserves the presence of every key. -/
theorem Add_zero_presence {V : Type} (vlen : V → Nat) (c : Cache V) (k k' : String)
    (v' : V) (hz : c.maxBytes = 0) (h : ∃ e ∈ c.ll, e.1 = k) :
    ∃ e ∈ (c.Add vlen k' v').1.ll, e.1 = k := by
  obtain ⟨e0, he0, hk0⟩ := h
  by_cases hkk : k = k'
  · subst hkk
    exact Add_zero_self_present vlen c k v' hz
  · cases hf : c.ll.find? (fun x => x.1 == k') with
    | some e =>
      rw [Add_eq_pos vlen c k' v' e hf, hz]
      show ∃ x ∈ (evictGo vlen 0 (c.ll.eraseP (fun x => x.1 == k') ++ [(k', v')]) _).1, x.1 = k
      rw [evictGo_zero]
      refine ⟨e0, List.mem_append_left _ ?_, hk0⟩
      rw [List.mem_eraseP_of_neg (by simp [hk0, hkk])]
      exact he0
    | none =>
      rw [Add_eq_neg vlen c k' v' hf, hz]
      show ∃ x ∈ (evictGo vlen 0 (c.ll ++ [(k', v')]) _).1, x.1 = k
      rw [evictGo_zero]
      exact ⟨e0, List.mem_append_left _ he0, hk0⟩

/-- A run of `Add` operations on a zero-capacity store evicts nothing and
preserves key presence. -/
theorem run_adds_zero {V : Type} (vlen : V → Nat) :
    ∀ (ops : List (Op V)) (c : Cache V), c.maxBytes = 0 →
      (∀ op ∈ ops, ∃ k' v', op = Op.add k' v') →
      (run vlen c ops).2 = [] ∧ (run vlen c ops).1.maxBytes = 0 ∧
        ∀ k, (∃ e ∈ c.ll, e.1 = k) → ∃ e ∈ (run vlen c ops).1.ll, e.1 = k
  | [], c, hz, _ => ⟨rfl, hz, fun _ h => h⟩
  | op :: rest, c, hz, hops => by
    obtain ⟨k', v', rfl⟩ := hops op (List.mem_cons_self op rest)
    have hstep0 : (step vlen c (Op.add k' v')).2 = [] := (Add_zero vlen c k' v' hz).1
    have hmax : (step vlen c (Op.add k' v')).1.maxBytes = 0 := by
      rw [step_maxBytes]; exact hz
    have ih := run_adds_zero vlen rest (step vlen c (Op.add k' v')).1 hmax
      (fun op hop => hops op (List.mem_cons_of_mem _ hop))
    simp only [run]
    refine ⟨?_, ih.2.1, ?_⟩
    · rw [hstep0, List.nil_append]
      exact ih.1
    · intro k hk
      exact ih.2.2 k (Add_zero_presence vlen c k k' v' hz hk)

/-- Running a concatenation of operation sequences composes states and
concatenates eviction traces. -/
theorem run_append {V : Type} (vlen : V → Nat) :
    ∀ (l₁ l₂ : List (Op V)) (c : Cache V),
      run vlen c (l₁ ++ l₂) =
        ((run vlen (run vlen c l₁).1 l₂).1,
          (run vlen c l₁).2 ++ (run vlen (run vlen c l₁).1 l₂).2)
  | [], l₂, c => by simp [run]
  | op :: rest, l₂, c => by
    simp only [List.cons_append, run, List.append_eq]
    rw [run_append vlen rest l₂ (step vlen c op).1]
    simp [List.append_assoc]

/-- `Get` hits exactly when some entry carries the key. -/
theorem Get_isSome_iff {V : Type} (c : Cache V) (k : String) :
    (c.Get k).1.isSome ↔ ∃ e ∈ c.ll, e.1 = k := by
  cases hf : c.ll.find? (fun x => x.1 == k) with
  | some e =>
    rw [Get_eq_pos c k e hf]
    exact iff_of_true rfl
      ⟨e, List.mem_of_find?_eq_some hf, by simpa using List.find?_some hf⟩
  | none =>
    rw [Get_eq_neg c k hf]
    refine iff_of_false (by simp) ?_
    rintro ⟨e, he, hk⟩
    have := List.find?_eq_none.mp hf e he
    simp [hk] at this

/-- C7: Zero capacity disables bounding — for a store constructed with
`maxBytes = 0`, a sequence of `Add` operations never evicts an entry or
invokes the eviction callback (the trace is empty), and every added key is
still retrievable by `Get` at the end (nothing was removed, since no
`RemoveOldest` was issued). -/
theorem C7_zero_capacity {V : Type} (vlen : V → Nat) (ops : List (Op V)) (k : String)
    (v : V) (hops : ∀ op ∈ ops, ∃ k' v', op = Op.add k' v')
    (hmem : Op.add k v ∈ ops) :
    (run vlen (New V 0) ops).2 = [] ∧
      ((run vlen (New V 0) ops).1.Get k).1.isSome := by
  obtain ⟨pre, post, rfl⟩ := List.append_of_mem hmem
  have hops_pre : ∀ op ∈ pre, ∃ k' v', op = Op.add k' v' :=
    fun op hop => hops op (List.mem_append_left _ hop)
  have hops_post : ∀ op ∈ post, ∃ k' v', op = Op.add k' v' :=
    fun op hop => hops op (List.mem_append_right _ (List.mem_cons_of_mem _ hop))
  have hpre := run_adds_zero vlen pre (New V 0) rfl hops_pre
  rw [run_append]
  simp only [run]
  have hz1 : (run vlen (New V 0) pre).1.maxBytes = 0 := hpre.2.1
  have hstep0 : (step vlen (run vlen (New V 0) pre).1 (Op.add k v)).2 = [] :=
    (Add_zero vlen _ k v hz1).1
  have hmax2 : (step vlen (run vlen (New V 0) pre).1 (Op.add k v)).1.maxBytes = 0 := by
    rw [step_maxBytes]; exact hz1
  have hpost := run_adds_zero vlen post _ hmax2 hops_post
  constructor
  · rw [hpre.1, hstep0, hpost.1]
    rfl
  · rw [Get_isSome_iff]
    exact hpost.2.2 k (Add_zero_self_present vlen _ k v hz1)

/-- C7 witness: one `Add` into a zero-capacity store. -/
theorem C7_zero_capacity_witness :
    (∀ op ∈ [Op.add (V := Unit) "a" ()], ∃ k' v', op = Op.add k' v') ∧
    Op.add "a" () ∈ [Op.add (V := Unit) "a" ()] ∧
    ((run (fun _ => 1) (New Unit 0) [Op.add "a" ()]).2 = [] ∧
      ((run (fun _ => 1) (New Unit 0) [Op.add "a" ()]).1.Get "a").1.isSome) :=
  ⟨fun op hop => ⟨"a", (), by simpa using hop⟩, by simp,
   C7_zero_capacity (fun _ => 1) [Op.add "a" ()] "a" ()
     (fun op hop => ⟨"a", (), by simpa using hop⟩) (by simp)⟩

/-- Moving the entry found by `find?` to the end permutes the list. -/
theorem perm_eraseP_append {α : Type} (p : α → Bool) :
    ∀ (l : List α) (e : α), l.find? p = some e → l.Perm (l.eraseP p ++ [e])
  | [], e, h => by simp at h
  | a :: rest, e, h => by
    by_cases hpa : p a
    · rw [List.find?_cons_of_pos _ hpa] at h
      cases h
      rw [List.eraseP_cons_of_pos hpa]
      exact (List.perm_append_singleton a rest).symm
    · rw [List.find?_cons_of_neg _ hpa] at h
      rw [List.eraseP_cons_of_neg hpa]
      have ih := perm_eraseP_append p rest e h
      simpa using ih.cons a

/-- `find?` is permutation-invariant when at most one element matches. -/
theorem find?_eq_of_perm_of_unique {α : Type} (p : α → Bool) (l l' : List α)
    (hperm : l.Perm l')
    (huniq : ∀ x ∈ l, ∀ y ∈ l, p x → p y → x = y) :
    l.find? p = l'.find? p := by
  cases hf : l.find? p with
  | some e =>
    cases hf' : l'.find? p with
    | some e' =>
      have he' : e' ∈ l := hperm.mem_iff.mpr (List.mem_of_find?_eq_some hf')
      rw [huniq e (List.mem_of_find?_eq_some hf) e' he'
        (List.find?_some hf) (List.find?_some hf')]
    | none =>
      have he : e ∈ l' := hperm.mem_iff.mp (List.mem_of_find?_eq_some hf)
      have := List.find?_eq_none.mp hf' e he
      exact absurd (List.find?_some hf) this
  | none =>
    cases hf' : l'.find? p with
    | some e' =>
      have he' : e' ∈ l := hperm.mem_iff.mpr (List.mem_of_find?_eq_some hf')
      have := List.find?_eq_none.mp hf e' he'
      exact absurd (List.find?_some hf') this
    | none => rfl

/-- `Get` permutes the entry list (it only moves the hit entry). -/
theorem Get_ll_perm {V : Type} (c : Cache V) (k : String) :
    (c.Get k).2.ll.Perm c.ll := by
  cases hf : c.ll.find? (fun x => x.1 == k) with
  | some e =>
    rw [Get_eq_pos c k e hf]
    exact (perm_eraseP_append _ c.ll e hf).symm
  | none =>
    rw [Get_eq_neg c k hf]

/-- C10: frame property of LRU `Get` — on any store state (keys are unique by
the Go map), `Get` changes only the recency order: capacity, byte counter and
entry count are unchanged, the entry list is a permutation of the old one
(hence the key set is unchanged), every key still `Get`s the same value, and
the operation produces no eviction (the Go body never calls the callback). -/
theorem C10_get_frame {V : Type} (vlen : V → Nat) (c : Cache V) (k : String)
    (hnodup : (c.ll.map Prod.fst).Nodup) :
    (c.Get k).2.maxBytes = c.maxBytes ∧
    (c.Get k).2.nbytes = c.nbytes ∧
    (c.Get k).2.ll.length = c.ll.length ∧
    (∀ k', k' ∈ (c.Get k).2.ll.map Prod.fst ↔ k' ∈ c.ll.map Prod.fst) ∧
    (∀ k', ((c.Get k).2.Get k').1 = (c.Get k').1) ∧
    (step vlen c (Op.get k)).2 = [] := by
  have hperm := Get_ll_perm c k
  have hmax : (c.Get k).2.maxBytes = c.maxBytes := by
    cases hf : c.ll.find? (fun x => x.1 == k) with
    | some e => rw [Get_eq_pos c k e hf]
    | none => rw [Get_eq_neg c k hf]
  have hn : (c.Get k).2.nbytes = c.nbytes := by
    cases hf : c.ll.find? (fun x => x.1 == k) with
    | some e => rw [Get_eq_pos c k e hf]
    | none => rw [Get_eq_neg c k hf]
  refine ⟨hmax, hn, hperm.length_eq, fun k' => (hperm.map Prod.fst).mem_iff, ?_, rfl⟩
  intro k'
  have huniq : ∀ x ∈ c.ll, ∀ y ∈ c.ll, (x.1 == k') = true → (y.1 == k') = true → x = y := by
    intro x hx y hy hxk hyk
    have hx' : x.1 = k' := by simpa using hxk
    have hy' : y.1 = k' := by simpa using hyk
    exact List.inj_on_of_nodup_map hnodup hx hy (hx'.trans hy'.symm)
  have hfind := find?_eq_of_perm_of_unique (fun x => x.1 == k') (c.Get k).2.ll c.ll hperm
    (fun x hx y hy => huniq x (hperm.mem_iff.mp hx) y (hperm.mem_iff.mp hy))
  cases hf : (c.Get k).2.ll.find? (fun x => x.1 == k') with
  | some e =>
    rw [Get_eq_pos _ k' e hf, Get_eq_pos c k' e (by rw [← hfind, hf])]
  | none =>
    rw [Get_eq_neg _ k' hf, Get_eq_neg c k' (by rw [← hfind, hf])]

/-- C10 witness: a two-entry store. -/
theorem C10_get_frame_witness :
    ((([("a", 5), ("b", 7)] : List (String × Nat)).map Prod.fst).Nodup) ∧
    (((⟨9, 3, [("a", 5), ("b", 7)]⟩ : Cache Nat).Get "a").2.maxBytes = 9 ∧
      ((⟨9, 3, [("a", 5), ("b", 7)]⟩ : Cache Nat).Get "a").2.nbytes = 3 ∧
      ((⟨9, 3, [("a", 5), ("b", 7)]⟩ : Cache Nat).Get "a").2.ll.length =
        ([("a", 5), ("b", 7)] : List (String × Nat)).length ∧
      (∀ k', k' ∈ ((⟨9, 3, [("a", 5), ("b", 7)]⟩ : Cache Nat).Get "a").2.ll.map Prod.fst ↔
        k' ∈ ([("a", 5), ("b", 7)] : List (String × Nat)).map Prod.fst) ∧
      (∀ k', (((⟨9, 3, [("a", 5), ("b", 7)]⟩ : Cache Nat).Get "a").2.Get k').1 =
        ((⟨9, 3, [("a", 5), ("b", 7)]⟩ : Cache Nat).Get k').1) ∧
      (step (fun v => v) (⟨9, 3, [("a", 5), ("b", 7)]⟩ : Cache Nat) (Op.get "a")).2 = []) :=
  ⟨by decide, C10_get_frame (fun v => v) ⟨9, 3, [("a", 5), ("b", 7)]⟩ "a" (by decide)⟩

end LRUCache

namespace GoCache

/-- The copy made by `cloneBytes` is element-for-element equal to its input. -/
theorem cloneBytes_eq : ∀ l : List Nat, cloneBytes l = l
  | [] => rfl
  | x :: xs => by rw [cloneBytes, cloneBytes_eq xs]

/-- C9: the `ByteView` contract — `Len` returns the number of bytes in the
internal buffer, `ByteSlice` returns a separately built copy that is
element-for-element equal to the buffer (so mutating the returned slice
cannot touch the view), and `String` returns exactly the buffer's bytes as
text.  All three are pure functions: no operation mutates a `ByteView`. -/
theorem C9_byteview_contract (v : ByteView) :
    v.Len = v.b.length ∧ v.ByteSlice = v.b ∧ v.toStr = v.b :=
  ⟨rfl, cloneBytes_eq v.b, rfl⟩

/-- C3: evaluation of `ServeHTTP` at the failing input.  The claim says a path
of the form `<basePath>/<group>/<key>` has its two segments extracted and 400
is returned only for fewer than two segments; but the source splits
`string(r.URL.Path[len(p.basePath)])` — only the single byte at index
`len(basePath)` (the slice colon is missing) — so the well-formed request
`GET /_gocache/scores/Tom`, with group `scores` registered, yields one part
(`"s"`), and the server answers `400 bad request`. -/
theorem C3_parse_code_bug :
    serveHTTP [("scores".data, scoresGroup)] defultBasePath "/_gocache/scores/Tom".data =
      httpError "bad request".data 400 := by
  decide

/-- C4: error responses of the group-handling tail of `ServeHTTP` (lines
80–98): when the requested group name is not registered the server responds
404 with the plain-text body `no such group:<name>`; when the group lookup
returns an error it responds 500 whose body is exactly the error text — the
fall-through `proto.Marshal` of the zero view appends no bytes, so no
serialized success payload is written for that request. -/
theorem C4_error_responses (groups : List (List Char × GroupM)) (name key : List Char) :
    (lookupGroup groups name = none →
      handleGroup groups name key =
        HResp.resp 404 (strBytes ("no such group:".data ++ name ++ ['\n']))) ∧
    (∀ g e, lookupGroup groups name = some g → g.get key = Except.error e →
      handleGroup groups name key = HResp.resp 500 (strBytes (e ++ ['\n']))) := by
  constructor
  · intro h
    simp [handleGroup, h, httpError]
  · intro g e hg he
    simp [handleGroup, hg, he, ByteView.ByteSlice, cloneBytes, pbMarshalResponse]

/-- C4 witness: an empty registry (404 case) and a failing group (500 case). -/
theorem C4_error_responses_witness :
    (lookupGroup [] "g".data = none ∧
      handleGroup [] "g".data "k".data =
        HResp.resp 404 (strBytes ("no such group:".data ++ "g".data ++ ['\n']))) ∧
    (lookupGroup [("g".data, boomGroup)] "g".data = some boomGroup ∧
      boomGroup.get "k".data = Except.error "boom".data ∧
      handleGroup [("g".data, boomGroup)] "g".data "k".data =
        HResp.resp 500 (strBytes ("boom".data ++ ['\n']))) :=
  ⟨⟨rfl, (C4_error_responses [] "g".data "k".data).1 rfl⟩,
   ⟨rfl, rfl, (C4_error_responses [("g".data, boomGroup)] "g".data "k".data).2
     boomGroup "boom".data rfl rfl⟩⟩

/-- Looking a configured peer up in the client map built by `Set` yields the
client whose base URL is that peer followed by the base path. -/
theorem lookupGetter_map (peers : List String) (bp : String) (k : String)
    (hk : k ∈ peers) :
    lookupGetter (peers.map (fun peer => (peer, ⟨peer ++ bp⟩))) k = some ⟨k ++ bp⟩ := by
  induction peers with
  | nil => cases hk
  | cons a rest ih =>
    simp only [List.map_cons, lookupGetter]
    by_cases hak : a = k
    · subst hak
      rw [List.find?_cons_of_pos _ (by simp)]
      rfl
    · rw [List.find?_cons_of_neg _ (by simp [hak])]
      have hk' : k ∈ rest := by
        cases hk with
        | head => exact absurd rfl hak
        | tail _ h => exact h
      simpa [lookupGetter] using ih hk'

/-- C8: `PickPeer` returns `found = false` exactly when the ring resolves the
key to this node's own address or no peers are configured; otherwise it
returns the HTTP client registered for the resolved peer address and
`found = true`.  `locate` abstracts the missing `consistenthash.Map.Get`; the
hypotheses are the spec's ring guarantees (a nonempty ring resolves to a
member, an empty ring to the empty string) plus the tacit assumption that
configured peer addresses are nonempty strings. -/
theorem C8_pickPeer (locate : List String → String → String) (p0 : HTTPPool)
    (peers : List String) (key : String)
    (hmem : peers ≠ [] → locate peers key ∈ peers)
    (hempty : locate [] key = "")
    (haddr : "" ∉ peers) :
    ((peers = [] ∨ locate peers key = p0.self) →
      (p0.Set peers).PickPeer locate key = (none, false)) ∧
    (peers ≠ [] → locate peers key ≠ p0.self →
      (p0.Set peers).PickPeer locate key =
        (some ⟨locate peers key ++ p0.basePath⟩, true)) := by
  constructor
  · rintro (rfl | hself)
    · simp [HTTPPool.PickPeer, HTTPPool.Set, hempty]
    · simp only [HTTPPool.PickPeer, HTTPPool.Set]
      rw [if_neg (by rintro ⟨-, hne⟩; exact hne hself)]
  · intro hne hself
    have hpmem : locate peers key ∈ peers := hmem hne
    have hpne : locate peers key ≠ "" := fun h => haddr (h ▸ hpmem)
    simp only [HTTPPool.PickPeer, HTTPPool.Set]
    rw [if_pos ⟨hpne, hself⟩]
    rw [lookupGetter_map peers p0.basePath _ hpmem]

/-- C8 witness: a two-peer ring resolving to the head, once equal to self and
once remote. -/
theorem C8_pickPeer_witness :
    ((["p1", "p2"] : List String) ≠ [] → locateHead ["p1", "p2"] "k" ∈ (["p1", "p2"] : List String)) ∧
    locateHead [] "k" = "" ∧ "" ∉ (["p1", "p2"] : List String) ∧
    ((NewHTTPPool "p1").Set ["p1", "p2"]).PickPeer locateHead "k" = (none, false) ∧
    ((NewHTTPPool "q").Set ["p1", "p2"]).PickPeer locateHead "k" =
      (some ⟨"p1" ++ "/_gocache/"⟩, true) :=
  ⟨by decide, rfl, by decide,
   (C8_pickPeer locateHead (NewHTTPPool "p1") ["p1", "p2"] "k" (by decide) rfl
     (by decide)).1 (Or.inr rfl),
   (C8_pickPeer locateHead (NewHTTPPool "q") ["p1", "p2"] "k" (by decide) rfl
     (by decide)).2 (by decide) (by decide)⟩

end GoCache
